import Mathlib

/-!
Verification of the selektr selection library (src/index.mjs) against its
specification.  The DOM tree is modelled as a rose tree of element and text
nodes; nodes are identified by their path (list of child indices) from the
root, which models JavaScript reference identity of distinct DOM nodes.

The DOM TreeWalker used by `count` and `uncount` is created with
`NodeFilter.SHOW_ALL` and a filter returning only FILTER_ACCEPT or
FILTER_SKIP.  For such a walker, `nextNode()` enumerates exactly the accepted
non-root nodes of the subtree in document (pre-order) order, and
`previousNode()` enumerates the accepted nodes before the current node in
reverse document order, finally yielding the traversal root itself when the
filter accepts it.  The traversal lists below embed this external DOM
behaviour; everything else is translated directly from the source.
-/

namespace Selektr

/-- A DOM node: an element with a tag name and an ordered list of children,
or a text node with its character data. -/
inductive DNode where
  | element : String → List DNode → DNode
  | text : String → DNode

/-- Paths of child indices, identifying a node inside a tree. -/
abbrev Path := List Nat

/-- JavaScript nodeName: the tag for elements, "#text" for text nodes. -/
def nodeName : DNode → String
  | DNode.element tag _ => tag
  | DNode.text _ => "#text"

/-- True for text nodes (JavaScript nodeType === 3). -/
def isTextNode : DNode → Bool
  | DNode.text _ => true
  | DNode.element _ _ => false

/-- Character length of a text node (node.textContent.length under the
nodeType === 3 guards in the source). -/
def textLen : DNode → Nat
  | DNode.text s => s.length
  | DNode.element _ _ => 0

mutual
/-- Length of node.textContent: all descendant character data concatenated. -/
def textContentLen : DNode → Nat
  | DNode.text s => s.length
  | DNode.element _ cs => textContentLenList cs
/-- Sum of textContent lengths over a list of nodes. -/
def textContentLenList : List DNode → Nat
  | [] => 0
  | c :: cs => textContentLen c + textContentLenList cs
end

/-- The childNodes list of a node (empty for text nodes). -/
def childrenOf : DNode → List DNode
  | DNode.element _ cs => cs
  | DNode.text _ => []

/-- Number of child nodes (node.childNodes.length). -/
def childCount (n : DNode) : Nat := (childrenOf n).length

/-- Look up the node at a path, if the path is valid. -/
def nodeAt : DNode → Path → Option DNode
  | n, [] => some n
  | n, i :: p =>
    match (childrenOf n)[i]? with
    | some c => nodeAt c p
    | none => none

/-- The next sibling of the node at a path (node.nextSibling), within the
modelled tree.  The root of the tree has no modelled sibling. -/
def nextSiblingAt (root : DNode) (p : Path) : Option DNode :=
  match p.getLast? with
  | none => none
  | some i => nodeAt root (p.dropLast ++ [i + 1])

/-- Source line 30: the tags always significant for offset counting. -/
def sectionTags : List String := ["P", "H1", "H2", "H3", "H4", "H5", "H6", "LI"]

/-- Source isSection: nodeType === 1 and tagName in sectionTags. -/
def isSection : DNode → Bool
  | DNode.element tag _ => sectionTags.contains tag
  | DNode.text _ => false

/-- The selector test is(node, "UL,OL"): an element whose tag is UL or OL;
false for text nodes, which never match a selector. -/
def isListContainer : DNode → Bool
  | DNode.element tag _ => tag == "UL" || tag == "OL"
  | DNode.text _ => false

/-- Source filter (line 45): accept unless the node is a list container, or
it is a BR whose nextSibling is missing or is a list container.  The JS
expression (node.nextSibling && !is(node.nextSibling, "UL,OL")) is falsy when
nextSibling is null. -/
def filterAccept (root : DNode) (p : Path) : Bool :=
  match nodeAt root p with
  | none => false
  | some n =>
    !(isListContainer n) &&
      (nodeName n != "BR" ||
        (match nextSiblingAt root p with
         | some sib => !(isListContainer sib)
         | none => false))

/-- Whether the tree walker (filter = null when countAll) yields this node. -/
def accepted (root : DNode) (cAll : Bool) (p : Path) : Bool :=
  cAll || filterAccept root p

mutual
/-- All paths of the subtree in document (pre-order) order, starting with
the root path []. -/
def preorderPaths : DNode → List Path
  | DNode.text _ => [[]]
  | DNode.element _ cs => [] :: preorderChildren 0 cs
/-- Pre-order paths contributed by a list of children starting at index i. -/
def preorderChildren : Nat → List DNode → List Path
  | _, [] => []
  | i, c :: cs => (preorderPaths c).map (List.cons i) ++ preorderChildren (i + 1) cs
end

/-- The accepted non-root nodes of the subtree in document order: exactly
the sequence produced by repeated TreeWalker.nextNode() from the root with
an ACCEPT/SKIP filter. -/
def acceptedList (root : DNode) (cAll : Bool) : List Path :=
  (preorderPaths root).filter (fun p => !p.isEmpty && accepted root cAll p)

/-- Document order on paths: an ancestor precedes its descendants, and
siblings are ordered by index. -/
def pathLt : Path → Path → Bool
  | _, [] => false
  | [], _ :: _ => true
  | a :: ps, b :: qs => decide (a < b) || (a == b && pathLt ps qs)

/-- Source count, line 80 significance test: countAll, a section element or
a BR counts one step. -/
def significant (cAll : Bool) (n : DNode) : Bool :=
  cAll || isSection n || nodeName n == "BR"

/-- Body of the while loop of count (source lines 79-89) at one visited
node: add one step for a significant non-root node, and the character length
of a visited text node other than ref. -/
def countVisit (root : DNode) (ref : Option Path) (cAll : Bool) (off : Nat) (p : Path) : Nat :=
  match nodeAt root p with
  | none => off
  | some n =>
    let off1 := if !p.isEmpty && significant cAll n then off + 1 else off
    if ref != some p && isTextNode n then off1 + textLen n else off1

/-- The nodes count visits.  Without ref: the root then every accepted node
forward (nextNode).  With ref: ref itself (assigned to currentNode, so
visited even if the filter would skip it), then the accepted nodes before it
in reverse order (previousNode), and finally the traversal root when the
filter accepts it; previousNode never moves when ref is the root itself. -/
def visitedPaths (root : DNode) (ref : Option Path) (cAll : Bool) : List Path :=
  match ref with
  | none => [] :: acceptedList root cAll
  | some r =>
    if r.isEmpty then [r]
    else
      r :: (((acceptedList root cAll).filter (fun q => pathLt q r)).reverse
        ++ (if accepted root cAll [] then [[]] else []))

/-- Source count (lines 66-92): fold the loop body over the visited nodes. -/
def count (root : DNode) (ref : Option Path) (cAll : Bool) : Nat :=
  (visitedPaths root ref cAll).foldl (countVisit root ref cAll) 0

/-- A caret position: a reference node (as a path) and an offset. -/
structure Position where
  ref : Path
  offset : Nat
deriving DecidableEq

/-- The while loop of uncount (source lines 143-161) over the sequence of
accepted nodes: a significant node with zero budget breaks before moving
ref; otherwise it costs one step, ref moves to the node, and a text node
either swallows its length or breaks with the remaining budget. -/
def uncountLoop (root : DNode) (cAll : Bool) : List Path → Nat → Path → Path × Nat
  | [], off, ref => (ref, off)
  | p :: rest, off, ref =>
    match nodeAt root p with
    | none => (ref, off)
    | some n =>
      if significant cAll n && off == 0 then (ref, off)
      else
        let off1 := if significant cAll n then off - 1 else off
        if isTextNode n then
          if off1 > textLen n then uncountLoop root cAll rest (off1 - textLen n) p
          else (p, off1)
        else uncountLoop root cAll rest off1 p

/-- uncount before the BR fix-up: text roots perform no traversal (source
line 140 guard). -/
def uncountRaw (root : DNode) (off : Nat) (cAll : Bool) : Path × Nat :=
  match root with
  | DNode.text _ => ([], off)
  | DNode.element _ _ => uncountLoop root cAll (acceptedList root cAll) off []

/-- Source lines 164-167: if resolution landed on a BR, move ref to its
parent with offset = child index of the BR plus one.  A BR that is itself
the modelled root has no parent inside the model; that case is excluded by
hypotheses wherever it matters. -/
def brFix (root : DNode) (pr : Path × Nat) : Path × Nat :=
  match nodeAt root pr.1 with
  | some n =>
    if nodeName n == "BR" then
      match pr.1.getLast? with
      | some i => (pr.1.dropLast, i + 1)
      | none => pr
    else pr
  | none => pr

/-- Source uncount (lines 133-173). -/
def uncount (root : DNode) (off : Nat) (cAll : Bool) : Position :=
  let r := brFix root (uncountRaw root off cAll)
  ⟨r.1, r.2⟩

/-- uncount with the JavaScript default (off = off || 0) for a missing
offset argument. -/
def uncountOpt (root : DNode) (off : Option Nat) (cAll : Bool) : Position :=
  uncount root (off.getD 0) cAll

/-- Structural validity of a position: the offset does not exceed the child
count of an element ref, nor the character length of a text ref. -/
def posValidB (root : DNode) (pos : Position) : Bool :=
  match nodeAt root pos.ref with
  | some (DNode.text s) => decide (pos.offset ≤ s.length)
  | some (DNode.element _ cs) => decide (pos.offset ≤ cs.length)
  | none => false

/-! ### The selection-setting model (source set, lines 444-481)

The host selection is modelled as an optional raw range; installing a range
replaces it, and the out-of-bounds early return leaves it untouched. -/

/-- A host selection range as four raw components. -/
structure RawRange where
  startRef : Path
  startOffset : Nat
  endRef : Path
  endOffset : Nat
deriving DecidableEq

/-- The argument of set: a single Position (positions.ref set) or a pair
with an optional end; a missing end aliases the start object, in which case
the source resolves only once. -/
inductive PosArg where
  | single : Position → PosArg
  | pair : Position → Option Position → PosArg

/-- Resolve one boundary through uncount against the subtree rooted at its
ref (source: uncount(positions.start.ref, positions.start.offset)); the
resulting local path is re-anchored below the ref.  The none fallback is
unreachable when the ref is a node of the document. -/
def resolvePos (doc : DNode) (pos : Position) : Position :=
  match nodeAt doc pos.ref with
  | none => pos
  | some sub =>
    let u := uncount sub pos.offset false
    ⟨pos.ref ++ u.ref, u.offset⟩

/-- The bounds test of set (lines 465-468) on one boundary: offset above the
child count of an element ref or the textContent length of a non-element
ref.  Unreachable none fallback for refs outside the document. -/
def outOfBounds (doc : DNode) (p : Position) : Bool :=
  match nodeAt doc p.ref with
  | some (DNode.element _ cs) => decide (p.offset > cs.length)
  | some (DNode.text s) => decide (p.offset > s.length)
  | none => false

/-- The start boundary taken from the argument before resolution. -/
def startInput : PosArg → Position
  | PosArg.single p => p
  | PosArg.pair s _ => s

/-- The end boundary taken from the argument before resolution
(positions.end = positions.end || positions.start). -/
def endInput : PosArg → Position
  | PosArg.single p => p
  | PosArg.pair s e => e.getD s

/-- Whether the source end boundary is the very same object as the start
(positions.end !== positions.start is false), so the resolved start is
reused. -/
def endSharesStart : PosArg → Bool
  | PosArg.single _ => true
  | PosArg.pair _ e => e.isNone

/-- The resolved start boundary of set: the input itself when shouldUncount
is exactly false, otherwise uncount of the input. -/
def resolvedStart (doc : DNode) (positions : PosArg) (su : Option Bool) : Position :=
  if su == some false then startInput positions else resolvePos doc (startInput positions)

/-- The resolved end boundary of set. -/
def resolvedEnd (doc : DNode) (positions : PosArg) (su : Option Bool) : Position :=
  if endSharesStart positions then resolvedStart doc positions su
  else if su == some false then endInput positions else resolvePos doc (endInput positions)

/-- Source set (lines 444-481) as a transformer of the host selection
state: resolve both boundaries, return the state unchanged (no exception)
when either is out of bounds, otherwise install the range. -/
def setModel (doc : DNode) (positions : PosArg) (su : Option Bool)
    (sel : Option RawRange) : Option RawRange :=
  let start := resolvedStart doc positions su
  let e := resolvedEnd doc positions su
  if outOfBounds doc start || outOfBounds doc e then sel
  else some ⟨start.ref, start.offset, e.ref, e.offset⟩

/-! ### The range-relative offset model (source offset, lines 106-119) -/

/-- The host selection range as read by window.getSelection().getRangeAt(0):
boundary containers are paths into the document. -/
structure HostRange where
  collapsed : Bool
  startRef : Path
  startOff : Nat
  endRef : Path
  endOff : Nat

/-- count(element, ref, countAll) where element sits at ePath in the
document and ref at rPath inside it; paths are re-based to the subtree. -/
def countRel (doc : DNode) (ePath rPath : Path) (cAll : Bool) : Nat :=
  match nodeAt doc ePath with
  | none => 0
  | some sub =>
    if ePath.isPrefixOf rPath then count sub (some (rPath.drop ePath.length)) cAll
    else 0

/-- Source offset (lines 106-119) with the element given explicitly: read
the caret container and offset from the host range; an element container
with a positive offset is re-pointed at the end of the preceding child;
return count(element, ref, countAll) + off. -/
def offsetFn (doc : DNode) (host : HostRange) (ePath : Path) (caret : String)
    (cAll : Bool) : Nat :=
  let rp := if caret == "start" then host.startRef else host.endRef
  let o := if caret == "start" then host.startOff else host.endOff
  match nodeAt doc rp with
  | none => 0
  | some rn =>
    if !(isTextNode rn) && o > 0 then
      match nodeAt doc (rp ++ [o - 1]) with
      | none => 0
      | some child => countRel doc ePath (rp ++ [o - 1]) cAll + textContentLen child
    else countRel doc ePath rp cAll + o

/-! ### The containment model (source contains, fallback branch 194-216) -/

/-- The fallback branch of contains for a node inside the common-ancestor
element subtree: text nodes force partly-contained semantics; four linear
offsets are computed with countAll = true and compared with the source's
inclusive comparisons. -/
def containsFallback (doc : DNode) (host : HostRange) (ancPath nodePath : Path)
    (partlyContained : Bool) : Bool :=
  let partly := match nodeAt doc nodePath with
    | some (DNode.text _) => true
    | _ => partlyContained
  let rangeStartOffset := offsetFn doc host ancPath "start" true
  let rangeEndOffset := offsetFn doc host ancPath "end" true
  let startOffset := countRel doc ancPath nodePath true
  let endOffset := match nodeAt doc nodePath with
    | some (DNode.element t cs) => startOffset + count (DNode.element t cs) none true + 1
    | some (DNode.text s) => startOffset + s.length
    | none => startOffset
  (decide (startOffset ≥ rangeStartOffset) && decide (endOffset ≤ rangeEndOffset)) ||
    (partly &&
      ((decide (rangeStartOffset ≥ startOffset) && decide (rangeStartOffset ≤ endOffset)) ||
       (decide (rangeEndOffset ≥ startOffset) && decide (rangeEndOffset ≤ endOffset))))

/-! ### The get model (source get, lines 386-415) -/

/-- JavaScript values that can reach the parameters of get. -/
inductive JSVal where
  | str : String → JSVal
  | jsbool : Bool → JSVal
  | num : Int → JSVal
  | node : Path → JSVal
  | undef : JSVal
deriving DecidableEq

/-- JavaScript truthiness of the modelled values. -/
def truthy : JSVal → Bool
  | JSVal.str s => !(s == "")
  | JSVal.jsbool b => b
  | JSVal.num n => !(n == 0)
  | JSVal.node _ => true
  | JSVal.undef => false

/-- The exact Error message thrown by get (source line 399). -/
def invalidArgMsg : String :=
  "You have to pass \"start\" or \"end\" if you pass a string as the first parameter"

/-- A position as get returns it: a ref value and an offset. -/
structure GPos where
  ref : JSVal
  offset : Nat
deriving DecidableEq

/-- Result of get: a single position or a start/end pair. -/
inductive GetRet where
  | single : GPos → GetRet
  | both : GPos → GPos → GetRet
deriving DecidableEq

/-- get with a string caret (the non-recursive arm, source lines 398-414):
throw for a string that is neither "start" nor "end"; element === true
returns the raw host container and offset; otherwise default the element
and return its range-relative offset.  A non-node element reaching the DOM
traversal is a host TypeError, distinct from the invalid-argument Error. -/
def getStrCaret (doc : DNode) (host : HostRange) (defaultElem : Option Path)
    (caret : String) (element cAll : JSVal) : Except String GPos :=
  if caret != "start" && caret != "end" then Except.error invalidArgMsg
  else if element == JSVal.jsbool true then
    Except.ok ⟨JSVal.node (if caret == "start" then host.startRef else host.endRef),
      if caret == "start" then host.startOff else host.endOff⟩
  else
    match (if truthy element then element else
      match defaultElem with
      | some p => JSVal.node p
      | none => JSVal.node []) with
    | JSVal.node p => Except.ok ⟨JSVal.node p, offsetFn doc host p caret (truthy cAll)⟩
    | _ => Except.error "TypeError"

/-- Source get (lines 386-415): with a non-string caret, recurse as
get("end", caret, element) and, unless the range is collapsed, also as
get("start", caret, element) — the caret value shifts into the element slot
and the element into the countAll slot. -/
def getModel (doc : DNode) (host : HostRange) (defaultElem : Option Path)
    (caret element cAll : JSVal) : Except String GetRet :=
  match caret with
  | JSVal.str s => (getStrCaret doc host defaultElem s element cAll).map GetRet.single
  | c =>
    match getStrCaret doc host defaultElem "end" c element with
    | Except.error e => Except.error e
    | Except.ok endPos =>
      if host.collapsed then Except.ok (GetRet.both endPos endPos)
      else
        match getStrCaret doc host defaultElem "start" c element with
        | Except.error e => Except.error e
        | Except.ok startPos => Except.ok (GetRet.both startPos endPos)

/-- Whether a call outcome is the invalid-argument failure of get. -/
def raisesInvalidArg {α : Type} : Except String α → Bool
  | Except.error m => m == invalidArgMsg
  | Except.ok _ => false

/-! ### Spec-following variants, for comparison with the source behaviour -/

/-- The filter as claim C3 words it: list containers are rejected, and a
line-break node is rejected ONLY when it is immediately followed by a
list-container sibling; every other node is accepted. -/
def claimFilterC3 (root : DNode) (p : Path) : Bool :=
  match nodeAt root p with
  | none => false
  | some n =>
    !(isListContainer n) &&
      (nodeName n != "BR" ||
        !(match nextSiblingAt root p with
          | some sib => isListContainer sib
          | none => false))

/-- The count value as claim C2 words it: one step for every visited
non-root node that passes the traversal filter (or for any visited non-root
node when countAll), plus the full length of every visited text node other
than ref. -/
def claimCountC2 (root : DNode) (ref : Option Path) (cAll : Bool) : Nat :=
  ((visitedPaths root ref cAll).filter
      (fun p => !p.isEmpty && (cAll || filterAccept root p))).length
  + ((visitedPaths root ref cAll).map
      (fun p =>
        match nodeAt root p with
        | some n => if ref != some p && isTextNode n then textLen n else 0
        | none => 0)).sum

/-- The containment result as claim C4 words it: full containment with
inclusive comparisons, or, when partly contained, a selection boundary
STRICTLY inside the node span. -/
def containsClaimC4 (doc : DNode) (host : HostRange) (ancPath nodePath : Path)
    (partlyContained : Bool) : Bool :=
  let partly := match nodeAt doc nodePath with
    | some (DNode.text _) => true
    | _ => partlyContained
  let rangeStartOffset := offsetFn doc host ancPath "start" true
  let rangeEndOffset := offsetFn doc host ancPath "end" true
  let startOffset := countRel doc ancPath nodePath true
  let endOffset := match nodeAt doc nodePath with
    | some (DNode.element t cs) => startOffset + count (DNode.element t cs) none true + 1
    | some (DNode.text s) => startOffset + s.length
    | none => startOffset
  (decide (rangeStartOffset ≤ startOffset) && decide (endOffset ≤ rangeEndOffset)) ||
    (partly &&
      ((decide (startOffset < rangeStartOffset) && decide (rangeStartOffset < endOffset)) ||
       (decide (startOffset < rangeEndOffset) && decide (rangeEndOffset < endOffset))))

/-- The failure condition as claim C7 words it: caret is a non-string,
non-boolean value that is also not "start" or "end". -/
def claimC7Fails (v : JSVal) : Bool :=
  (match v with | JSVal.str _ => false | _ => true) &&
    (match v with | JSVal.jsbool _ => false | _ => true) &&
    v != JSVal.str "start" && v != JSVal.str "end"

/-- Whether the node the path points to is a BR element. -/
def brAt (root : DNode) (p : Path) : Bool :=
  match nodeAt root p with
  | some n => nodeName n == "BR"
  | none => false

/-- The contribution of one visited node to count: one step when it is a
significant non-root node, plus its character data when it is a text node
other than ref. -/
def contribOf (root : DNode) (ref : Option Path) (cAll : Bool) (p : Path) : Nat :=
  match nodeAt root p with
  | none => 0
  | some n =>
    (if !p.isEmpty && significant cAll n then 1 else 0)
      + (if ref != some p && isTextNode n then textLen n else 0)

/-- Sum of the forward contributions (ref = none) over a list of paths. -/
def msum (root : DNode) (cAll : Bool) (l : List Path) : Nat :=
  (l.map (contribOf root none cAll)).sum

/-- Text length of the node at a path, zero for elements and invalid paths. -/
def tlenAt (root : DNode) (p : Path) : Nat :=
  match nodeAt root p with
  | some (DNode.text s) => s.length
  | _ => 0

/-- startOffset of the containment test: count(ancestor, node, true). -/
def nodeStartOff (doc : DNode) (ancPath nodePath : Path) : Nat :=
  countRel doc ancPath nodePath true

/-- endOffset of the containment test: startOffset + 1 + count(node, null,
true) for an Element, startOffset + length for a Text node. -/
def nodeEndOff (doc : DNode) (ancPath nodePath : Path) : Nat :=
  match nodeAt doc nodePath with
  | some (DNode.element t cs) =>
    nodeStartOff doc ancPath nodePath + count (DNode.element t cs) none true + 1
  | some (DNode.text s) => nodeStartOff doc ancPath nodePath + s.length
  | none => nodeStartOff doc ancPath nodePath

/-- The effective partly-contained flag: forced to true for Text nodes. -/
def effPartly (doc : DNode) (nodePath : Path) (pc : Bool) : Bool :=
  match nodeAt doc nodePath with
  | some (DNode.text _) => true
  | _ => pc

/-- The two-paragraph scenario of the spec: root with two Section-tagged
paragraphs holding the texts "AB" and "CD". -/
def docAbCd : DNode :=
  DNode.element "DIV"
    [DNode.element "P" [DNode.text "AB"], DNode.element "P" [DNode.text "CD"]]

/-- A span with no content, used in several scenarios. -/
def spanNode : DNode := DNode.element "SPAN" []

/-- A line-break node. -/
def brNode : DNode := DNode.element "BR" []

/-- Scenario for C2: an element whose only child passes the filter but is
neither a section nor a line break. -/
def docSpanOnly : DNode := DNode.element "DIV" [spanNode]

/-- Scenario for C3: a paragraph whose last child is a line break with no
following sibling at all. -/
def docTrailingBr : DNode := DNode.element "P" [brNode]

/-- Scenario for C3 and C9: a line break immediately followed by a list. -/
def docBrList : DNode :=
  DNode.element "DIV" [brNode, DNode.element "UL" [DNode.element "LI" []]]

/-- Scenario for C10: a paragraph with three empty spans, a BR and a
heading; uncount lands on the BR and normalizes to (P, 4), which set then
re-resolves out of bounds. -/
def docBrHeading : DNode :=
  DNode.element "DIV"
    [DNode.element "P" [spanNode, spanNode, spanNode, brNode, DNode.element "H1" []]]

/-- Host range for the C4 scenario: selection collapsed at the end of the
text "CD". -/
def hostEndCd : HostRange := ⟨true, [1, 0], 2, [1, 0], 2⟩

/-! ### Concrete evaluations validating the embedding -/

example : count docAbCd none false = 6 := by decide
example : count docAbCd none true = 8 := by decide
example : uncount docAbCd 0 false = ⟨[], 0⟩ := by decide
example : uncount docAbCd 3 false = ⟨[0, 0], 2⟩ := by decide
example : count docAbCd (some [0, 0]) false = 1 := by decide
example : count docAbCd (some [1]) false = 4 := by decide

example : count docSpanOnly none false = 0 := by decide
example : claimCountC2 docSpanOnly none false = 1 := by decide

example : filterAccept docTrailingBr [0] = false := by decide
example : claimFilterC3 docTrailingBr [0] = true := by decide

example : count docBrList none false = 1 := by decide
example : pathLt [0] [1] = true := by decide
example : count docBrList (some [0]) false = 1 := by decide
example : count docBrList (some [1]) false = 0 := by decide

example : count docBrHeading none false = 3 := by decide
example : uncount docBrHeading 2 false = ⟨[0], 4⟩ := by decide
example : posValidB docBrHeading ⟨[0], 4⟩ = true := by decide
example : resolvePos docBrHeading ⟨[0], 4⟩ = ⟨[0, 4], 2⟩ := by decide
example : outOfBounds docBrHeading ⟨[0, 4], 2⟩ = true := by decide
example :
    setModel docBrHeading (PosArg.single ⟨[0], 4⟩) none (some ⟨[], 0, [], 0⟩)
      = some ⟨[], 0, [], 0⟩ := by decide

example : containsFallback docAbCd hostEndCd [] [1, 0] false = true := by decide
example : containsClaimC4 docAbCd hostEndCd [] [1, 0] false = false := by decide

example :
    raisesInvalidArg (getModel docAbCd hostEndCd none (JSVal.str "foo") JSVal.undef JSVal.undef)
      = true := by decide
example : claimC7Fails (JSVal.str "foo") = false := by decide
example : claimC7Fails JSVal.undef = true := by decide
example :
    raisesInvalidArg (getModel docAbCd hostEndCd none JSVal.undef JSVal.undef JSVal.undef)
      = false := by decide

/-! ### Order lemmas for document order on paths -/

theorem pathLt_irrefl : ∀ p : Path, pathLt p p = false
  | [] => rfl
  | a :: ps => by simp [pathLt, pathLt_irrefl ps]

theorem pathLt_ne {p q : Path} (h : pathLt p q = true) : p ≠ q := by
  intro hEq
  subst hEq
  simp [pathLt_irrefl] at h

theorem pathLt_asymm : ∀ p q : Path, pathLt p q = true → pathLt q p = false := by
  intro p
  induction p with
  | nil =>
    intro q h
    cases q with
    | nil => simp [pathLt] at h
    | cons b qs => simp [pathLt]
  | cons a ps ih =>
    intro q h
    cases q with
    | nil => simp [pathLt] at h
    | cons b qs =>
      simp only [pathLt, Bool.or_eq_true, decide_eq_true_eq, Bool.and_eq_true,
        beq_iff_eq] at h
      simp only [pathLt, Bool.or_eq_false_iff, decide_eq_false_iff_not,
        Bool.and_eq_false_iff, beq_eq_false_iff_ne, ne_eq]
      rcases h with h | ⟨hEq, hps⟩
      · exact ⟨by omega, Or.inl (by omega)⟩
      · subst hEq
        exact ⟨by omega, Or.inr (ih qs hps)⟩

theorem pathLt_trans : ∀ p q r : Path, pathLt p q = true → pathLt q r = true →
    pathLt p r = true := by
  intro p
  induction p with
  | nil =>
    intro q r _ h2
    cases r with
    | nil => cases q <;> simp [pathLt] at h2
    | cons c rs => simp [pathLt]
  | cons a ps ih =>
    intro q r h1 h2
    cases q with
    | nil => simp [pathLt] at h1
    | cons b qs =>
      cases r with
      | nil => simp [pathLt] at h2
      | cons c rs =>
        simp only [pathLt, Bool.or_eq_true, decide_eq_true_eq, Bool.and_eq_true,
          beq_iff_eq] at h1 h2 ⊢
        rcases h1 with h1 | ⟨hab, hps⟩
        · rcases h2 with h2 | ⟨hbc, _⟩
          · exact Or.inl (by omega)
          · exact Or.inl (by omega)
        · subst hab
          rcases h2 with h2 | ⟨hbc, hqs⟩
          · exact Or.inl h2
          · subst hbc
            exact Or.inr ⟨rfl, ih qs rs hps hqs⟩

theorem pathLt_cons_same (i : Nat) (ps qs : Path) :
    pathLt (i :: ps) (i :: qs) = pathLt ps qs := by
  simp [pathLt]

theorem pathLt_cons_lt {i j : Nat} (h : i < j) (ps qs : Path) :
    pathLt (i :: ps) (j :: qs) = true := by
  simp [pathLt, h]

theorem pathLt_nil_cons (j : Nat) (qs : Path) : pathLt [] (j :: qs) = true := rfl

/-! ### count as a sum of per-node contributions -/

theorem countVisit_eq (root : DNode) (ref : Option Path) (cAll : Bool) (off : Nat)
    (p : Path) : countVisit root ref cAll off p = off + contribOf root ref cAll p := by
  unfold countVisit contribOf
  cases h : nodeAt root p with
  | none => simp
  | some n =>
    cases hA : (!p.isEmpty && significant cAll n) <;>
      cases hB : (ref != some p && isTextNode n) <;>
        simp [hA, hB] <;> omega

theorem count_foldl (root : DNode) (ref : Option Path) (cAll : Bool) :
    ∀ (l : List Path) (a : Nat),
      l.foldl (countVisit root ref cAll) a = a + (l.map (contribOf root ref cAll)).sum := by
  intro l
  induction l with
  | nil => intro a; simp
  | cons p t ih =>
    intro a
    rw [List.foldl_cons, ih, countVisit_eq, List.map_cons, List.sum_cons]
    omega

theorem count_eq_sum (root : DNode) (ref : Option Path) (cAll : Bool) :
    count root ref cAll = ((visitedPaths root ref cAll).map (contribOf root ref cAll)).sum := by
  unfold count
  rw [count_foldl]
  omega

theorem msum_append (root : DNode) (cAll : Bool) (l1 l2 : List Path) :
    msum root cAll (l1 ++ l2) = msum root cAll l1 + msum root cAll l2 := by
  simp [msum]

/-! ### Structure of the pre-order path list -/

theorem mem_of_idx {α : Type} : ∀ (l : List α) (k : Nat) (c : α), l[k]? = some c → c ∈ l := by
  intro l
  induction l with
  | nil => intro k c h; simp at h
  | cons x t ih =>
    intro k c h
    cases k with
    | zero =>
      simp at h
      simp [h]
    | succ k =>
      simp at h
      exact List.mem_cons_of_mem _ (ih k c h)

theorem mem_preorderChildren_ex :
    ∀ (cs : List DNode) (i : Nat) (q : Path), q ∈ preorderChildren i cs →
      ∃ k c p, cs[k]? = some c ∧ p ∈ preorderPaths c ∧ q = (i + k) :: p := by
  intro cs
  induction cs with
  | nil => intro i q h; simp [preorderChildren] at h
  | cons c cs ih =>
    intro i q h
    rw [preorderChildren] at h
    rcases List.mem_append.mp h with h | h
    · obtain ⟨p, hp, hq⟩ := List.mem_map.mp h
      refine ⟨0, c, p, by simp, hp, ?_⟩
      rw [← hq]
      simp
    · obtain ⟨k, c', p, hk, hp, hq⟩ := ih (i + 1) q h
      refine ⟨k + 1, c', p, by simpa using hk, hp, ?_⟩
      rw [hq]
      congr 1
      omega

theorem nodeAt_isSome_of_mem_preorder (n : DNode) (q : Path) (h : q ∈ preorderPaths n) :
    (nodeAt n q).isSome = true := by
  match n with
  | DNode.text s =>
    simp [preorderPaths] at h
    subst h
    rfl
  | DNode.element t cs =>
    rw [preorderPaths] at h
    rcases List.mem_cons.mp h with hq | hq
    · subst hq; rfl
    · obtain ⟨k, c, p, hk, hp, hq'⟩ := mem_preorderChildren_ex cs 0 q hq
      subst hq'
      have hk0 : (0 + k) = k := by omega
      rw [hk0]
      show (nodeAt (DNode.element t cs) (k :: p)).isSome = true
      simp only [nodeAt, childrenOf, hk]
      exact nodeAt_isSome_of_mem_preorder c p hp
termination_by sizeOf n
decreasing_by
  have h1 := List.sizeOf_lt_of_mem (mem_of_idx cs k c hk)
  simp only [DNode.element.sizeOf_spec]
  omega

mutual
theorem pairwise_preorder (n : DNode) :
    (preorderPaths n).Pairwise (fun a b => pathLt a b = true) := by
  match n with
  | DNode.text s => simp [preorderPaths]
  | DNode.element t cs =>
    rw [preorderPaths]
    refine List.pairwise_cons.mpr ⟨?_, pairwise_preorderChildren 0 cs⟩
    intro q hq
    obtain ⟨k, c, p, hk, hp, hq'⟩ := mem_preorderChildren_ex cs 0 q hq
    subst hq'
    exact pathLt_nil_cons _ _
termination_by sizeOf n

theorem pairwise_preorderChildren (i : Nat) (cs : List DNode) :
    (preorderChildren i cs).Pairwise (fun a b => pathLt a b = true) := by
  match cs with
  | [] => simp [preorderChildren]
  | c :: cs =>
    rw [preorderChildren]
    refine List.pairwise_append.mpr
      ⟨?_, pairwise_preorderChildren (i + 1) cs, ?_⟩
    · refine List.pairwise_map.mpr ?_
      exact (pairwise_preorder c).imp (fun hab => by
        rw [pathLt_cons_same]; exact hab)
    · intro a ha b hb
      obtain ⟨p, hp, hpa⟩ := List.mem_map.mp ha
      obtain ⟨k, c', p', hk, hp', hq⟩ := mem_preorderChildren_ex cs (i + 1) b hb
      subst hq
      rw [← hpa]
      exact pathLt_cons_lt (by omega) _ _
termination_by sizeOf cs
end

/-! ### Facts about the accepted traversal list -/

theorem acceptedList_sorted (root : DNode) (cAll : Bool) :
    (acceptedList root cAll).Pairwise (fun a b => pathLt a b = true) :=
  (pairwise_preorder root).filter _

theorem mem_acceptedList {root : DNode} {cAll : Bool} {q : Path}
    (h : q ∈ acceptedList root cAll) :
    q ∈ preorderPaths root ∧ q.isEmpty = false ∧ accepted root cAll q = true := by
  unfold acceptedList at h
  have h2 := List.mem_filter.mp h
  refine ⟨h2.1, ?_, ?_⟩
  · have := h2.2
    simp only [Bool.and_eq_true, Bool.not_eq_true'] at this
    exact this.1
  · have := h2.2
    simp only [Bool.and_eq_true] at this
    exact this.2

theorem nodeAt_isSome_of_mem_accepted {root : DNode} {cAll : Bool} {q : Path}
    (h : q ∈ acceptedList root cAll) : (nodeAt root q).isSome = true :=
  nodeAt_isSome_of_mem_preorder root q (mem_acceptedList h).1

/-! ### Closed forms for count -/

theorem contrib_ne {root : DNode} {cAll : Bool} {r p : Path} (h : p ≠ r) :
    contribOf root (some r) cAll p = contribOf root none cAll p := by
  unfold contribOf
  cases hn : nodeAt root p with
  | none => rfl
  | some n =>
    have h2 : (some r != some p) = true := by
      simp only [bne_iff_ne, ne_eq, Option.some.injEq]
      exact fun hh => h hh.symm
    have h3 : ((none : Option Path) != some p) = true := by simp
    rw [h2, h3]

theorem contrib_nil_eq_zero {root : DNode} {cAll : Bool} {r : Path}
    (hne : r.isEmpty = false) (hr : (nodeAt root r).isSome = true) :
    contribOf root (some r) cAll [] = 0 := by
  unfold contribOf
  cases root with
  | element t cs => simp [nodeAt, isTextNode]
  | text s =>
    cases r with
    | nil => simp at hne
    | cons i rest => simp [nodeAt, childrenOf] at hr

theorem contrib_self {root : DNode} {cAll : Bool} {r : Path} {n : DNode}
    (hn : nodeAt root r = some n) (hne : r.isEmpty = false) :
    contribOf root (some r) cAll r = if significant cAll n then 1 else 0 := by
  unfold contribOf
  rw [hn]
  simp [hne]

theorem contrib_none_eq {root : DNode} {cAll : Bool} {p : Path} {n : DNode}
    (hn : nodeAt root p = some n) (hne : p.isEmpty = false) :
    contribOf root none cAll p
      = (if significant cAll n then 1 else 0) + tlenAt root p := by
  unfold contribOf tlenAt
  rw [hn]
  cases n with
  | text s => simp [hne, isTextNode, textLen]
  | element t cs => simp [hne, isTextNode]

theorem tlen_of_text {root : DNode} {p : Path} {n : DNode}
    (hn : nodeAt root p = some n) (ht : isTextNode n = true) :
    tlenAt root p = textLen n := by
  unfold tlenAt
  rw [hn]
  cases n with
  | text s => rfl
  | element t cs => simp [isTextNode] at ht

theorem tlen_of_elem {root : DNode} {p : Path} {n : DNode}
    (hn : nodeAt root p = some n) (ht : isTextNode n = false) :
    tlenAt root p = 0 := by
  unfold tlenAt
  rw [hn]
  cases n with
  | text s => simp [isTextNode] at ht
  | element t cs => rfl

theorem count_root_ref (root : DNode) (cAll : Bool) : count root (some []) cAll = 0 := by
  rw [count_eq_sum]
  simp only [visitedPaths, List.isEmpty_nil]
  simp [contribOf, nodeAt]

theorem count_none_eq (root : DNode) (cAll : Bool) :
    count root none cAll
      = contribOf root none cAll [] + msum root cAll (acceptedList root cAll) := by
  rw [count_eq_sum]
  simp only [visitedPaths]
  rw [List.map_cons, List.sum_cons]
  rfl

theorem count_some_eq (root : DNode) (cAll : Bool) (r : Path)
    (hne : r.isEmpty = false) (hr : (nodeAt root r).isSome = true) :
    count root (some r) cAll
      = contribOf root (some r) cAll r
        + msum root cAll ((acceptedList root cAll).filter (fun q => pathLt q r)) := by
  rw [count_eq_sum]
  simp only [visitedPaths, hne, Bool.false_eq_true, if_false]
  rw [List.map_cons, List.sum_cons, List.map_append, List.sum_append]
  have hrev : (((acceptedList root cAll).filter (fun q => pathLt q r)).reverse.map
      (contribOf root (some r) cAll)).sum
      = msum root cAll ((acceptedList root cAll).filter (fun q => pathLt q r)) := by
    rw [List.map_reverse, List.sum_reverse]
    unfold msum
    congr 1
    apply List.map_congr_left
    intro q hq
    have hlt : pathLt q r = true := by
      have := (List.mem_filter.mp hq).2
      simpa using this
    exact contrib_ne (pathLt_ne hlt)
  have hlast : ((if accepted root cAll [] then [([] : Path)] else []).map
      (contribOf root (some r) cAll)).sum = 0 := by
    cases hacc : accepted root cAll [] with
    | false => simp
    | true => simp [contrib_nil_eq_zero hne hr]
  rw [hrev, hlast]
  omega

/-! ### Splitting a sorted list at an element -/

theorem filter_pathLt_split : ∀ (l1 : List Path) (r : Path) (l2 : List Path),
    ((l1 ++ r :: l2).Pairwise (fun a b => pathLt a b = true)) →
    (l1 ++ r :: l2).filter (fun q => pathLt q r) = l1 := by
  intro l1
  induction l1 with
  | nil =>
    intro r l2 hs
    simp only [List.nil_append]
    rw [List.filter_cons]
    simp only [pathLt_irrefl, Bool.false_eq_true, if_false]
    apply List.filter_eq_nil_iff.mpr
    intro a ha
    have h1 : pathLt r a = true := (List.pairwise_cons.mp hs).1 a ha
    simp [pathLt_asymm _ _ h1]
  | cons x t ih =>
    intro r l2 hs
    rw [List.cons_append, List.filter_cons]
    have hxr : pathLt x r = true := by
      refine (List.pairwise_cons.mp hs).1 r ?_
      exact List.mem_append.mpr (Or.inr (List.mem_cons_self _ _))
    rw [hxr]
    simp only [if_true]
    rw [ih r l2 (List.pairwise_cons.mp hs).2]

/-! ### Sum comparisons over filtered lists -/

theorem sum_filter_le_of_imp {α : Type} (f : α → Nat) (P Q : α → Bool) :
    ∀ (l : List α), (∀ q ∈ l, P q = true → Q q = true) →
      ((l.filter P).map f).sum ≤ ((l.filter Q).map f).sum := by
  intro l
  induction l with
  | nil => intro _; simp
  | cons x t ih =>
    intro h
    have ht := ih (fun q hq => h q (List.mem_cons_of_mem _ hq))
    rw [List.filter_cons, List.filter_cons]
    cases hP : P x with
    | false =>
      cases hQ : Q x with
      | false => simpa using ht
      | true =>
        simp only [Bool.false_eq_true, if_false, if_true, List.map_cons, List.sum_cons]
        omega
    | true =>
      have hQ : Q x = true := h x (List.mem_cons_self _ _) hP
      rw [hQ]
      simp only [if_true, List.map_cons, List.sum_cons]
      omega

theorem sum_filter_add_le {α : Type} (f : α → Nat) (P Q : α → Bool) :
    ∀ (l : List α) (a : α), a ∈ l → P a = false → Q a = true →
      (∀ q ∈ l, P q = true → Q q = true) →
      ((l.filter P).map f).sum + f a ≤ ((l.filter Q).map f).sum := by
  intro l
  induction l with
  | nil => intro a ha; simp at ha
  | cons x t ih =>
    intro a ha hPa hQa himp
    rw [List.filter_cons, List.filter_cons]
    have himp' : ∀ q ∈ t, P q = true → Q q = true :=
      fun q hq => himp q (List.mem_cons_of_mem _ hq)
    rcases List.mem_cons.mp ha with hax | ha
    · subst hax
      rw [hPa, hQa]
      simp only [Bool.false_eq_true, if_false, if_true, List.map_cons, List.sum_cons]
      have := sum_filter_le_of_imp f P Q t himp'
      omega
    · have hrec := ih a ha hPa hQa himp'
      cases hP : P x with
      | false =>
        cases hQ : Q x with
        | false => simpa using hrec
        | true =>
          simp only [Bool.false_eq_true, if_false, if_true, List.map_cons, List.sum_cons]
          omega
      | true =>
        have hQ : Q x = true := himp x (List.mem_cons_self _ _) hP
        rw [hQ]
        simp only [if_true, List.map_cons, List.sum_cons]
        omega

/-! ### The invariant of the uncount loop -/

theorem posValid_zero {root : DNode} {r : Path} (hr : (nodeAt root r).isSome = true) :
    posValidB root ⟨r, 0⟩ = true := by
  unfold posValidB
  obtain ⟨n, hn⟩ := Option.isSome_iff_exists.mp hr
  rw [hn]
  cases n <;> simp

/-- Invariant of the while loop of uncount: processing the remaining
accepted nodes L with budget b, after a consumed prefix whose contributions
sum to msum pre, either the loop result round-trips through count exactly
and is structurally valid, or the original offset exceeded the total
capacity of the accepted list. -/
theorem uncountLoop_spec (root : DNode) (cAll : Bool) :
    ∀ (L pre : List Path) (b : Nat) (r : Path),
      acceptedList root cAll = pre ++ L →
      (nodeAt root r).isSome = true →
      count root (some r) cAll + tlenAt root r = msum root cAll pre →
      (b = 0 → tlenAt root r = 0) →
      (count root (some (uncountLoop root cAll L b r).1) cAll
          + (uncountLoop root cAll L b r).2 = msum root cAll pre + b
        ∧ posValidB root ⟨(uncountLoop root cAll L b r).1,
            (uncountLoop root cAll L b r).2⟩ = true)
      ∨ msum root cAll (acceptedList root cAll) < msum root cAll pre + b := by
  intro L
  induction L with
  | nil =>
    intro pre b r hA hr hcount hb0
    rw [uncountLoop]
    by_cases hb : b = 0
    · subst hb
      left
      refine ⟨?_, posValid_zero hr⟩
      show count root (some r) cAll + 0 = msum root cAll pre + 0
      have := hb0 rfl
      omega
    · right
      rw [hA, List.append_nil]
      omega
  | cons p rest ih =>
    intro pre b r hA hr hcount hb0
    have hpmem : p ∈ acceptedList root cAll := by
      rw [hA]
      exact List.mem_append.mpr (Or.inr (List.mem_cons_self _ _))
    have hpe : p.isEmpty = false := (mem_acceptedList hpmem).2.1
    have hpsome : (nodeAt root p).isSome = true := nodeAt_isSome_of_mem_accepted hpmem
    obtain ⟨np, hnp⟩ := Option.isSome_iff_exists.mp hpsome
    have hfilter : (acceptedList root cAll).filter (fun q => pathLt q p) = pre := by
      have hs := acceptedList_sorted root cAll
      rw [hA] at hs
      rw [hA]
      exact filter_pathLt_split pre p rest hs
    have hcp : count root (some p) cAll
        = (if significant cAll np then 1 else 0) + msum root cAll pre := by
      rw [count_some_eq root cAll p hpe hpsome, contrib_self hnp hpe, hfilter]
    have hmsum1 : msum root cAll (pre ++ [p])
        = msum root cAll pre + ((if significant cAll np then 1 else 0) + tlenAt root p) := by
      rw [msum_append]
      congr 1
      simp [msum, contrib_none_eq hnp hpe]
    have hA' : acceptedList root cAll = (pre ++ [p]) ++ rest := by
      rw [hA, List.append_assoc, List.singleton_append]
    by_cases hc : (significant cAll np && b == 0) = true
    · have hres : uncountLoop root cAll (p :: rest) b r = (r, b) := by
        simp [uncountLoop, hnp, hc]
      rw [hres]
      have hb : b = 0 := by
        have h2 := (Bool.and_eq_true _ _).mp hc
        simpa using h2.2
      subst hb
      left
      refine ⟨?_, posValid_zero hr⟩
      show count root (some r) cAll + 0 = msum root cAll pre + 0
      have := hb0 rfl
      omega
    · cases hs : significant cAll np with
      | true =>
        have hbne : b ≠ 0 := by
          intro hb
          subst hb
          simp [hs] at hc
        have hbeq : (b == 0) = false := by
          simp [hbne]
        have hcp1 : count root (some p) cAll = 1 + msum root cAll pre := by
          rw [hcp]
          simp [hs]
        have hmsum11 : msum root cAll (pre ++ [p])
            = msum root cAll pre + (1 + tlenAt root p) := by
          rw [hmsum1]
          simp [hs]
        cases ht : isTextNode np with
        | true =>
          have htl : tlenAt root p = textLen np := tlen_of_text hnp ht
          by_cases hgt : b - 1 > textLen np
          · have hres : uncountLoop root cAll (p :: rest) b r
                = uncountLoop root cAll rest (b - 1 - textLen np) p := by
              simp [uncountLoop, hnp, hs, hbeq, ht, hgt]
            rw [hres]
            have hcount' : count root (some p) cAll + tlenAt root p
                = msum root cAll (pre ++ [p]) := by
              rw [hcp1, hmsum11]
              omega
            have hb0' : b - 1 - textLen np = 0 → tlenAt root p = 0 := by
              intro h0
              exact absurd h0 (by omega)
            have hrec := ih (pre ++ [p]) (b - 1 - textLen np) p hA' hpsome hcount' hb0'
            have hkey : msum root cAll (pre ++ [p]) + (b - 1 - textLen np)
                = msum root cAll pre + b := by
              rw [hmsum11, htl]
              omega
            rw [hkey] at hrec
            exact hrec
          · have hres : uncountLoop root cAll (p :: rest) b r = (p, b - 1) := by
              simp [uncountLoop, hnp, hs, hbeq, ht, hgt]
            rw [hres]
            left
            refine ⟨?_, ?_⟩
            · show count root (some p) cAll + (b - 1) = msum root cAll pre + b
              rw [hcp1]
              omega
            · show posValidB root ⟨p, b - 1⟩ = true
              unfold posValidB
              cases np with
              | text s2 =>
                rw [hnp]
                simp only [textLen] at hgt
                simp
                omega
              | element t2 cs2 => simp [isTextNode] at ht
        | false =>
          have htl : tlenAt root p = 0 := tlen_of_elem hnp ht
          have hres : uncountLoop root cAll (p :: rest) b r
              = uncountLoop root cAll rest (b - 1) p := by
            simp [uncountLoop, hnp, hs, hbeq, ht]
          rw [hres]
          have hcount' : count root (some p) cAll + tlenAt root p
              = msum root cAll (pre ++ [p]) := by
            rw [hcp1, hmsum11]
            omega
          have hb0' : b - 1 = 0 → tlenAt root p = 0 := fun _ => htl
          have hrec := ih (pre ++ [p]) (b - 1) p hA' hpsome hcount' hb0'
          have hkey : msum root cAll (pre ++ [p]) + (b - 1)
              = msum root cAll pre + b := by
            rw [hmsum11, htl]
            omega
          rw [hkey] at hrec
          exact hrec
      | false =>
        have hcp0 : count root (some p) cAll = msum root cAll pre := by
          rw [hcp]
          simp [hs]
        have hmsum10 : msum root cAll (pre ++ [p])
            = msum root cAll pre + tlenAt root p := by
          rw [hmsum1]
          simp [hs]
        cases ht : isTextNode np with
        | true =>
          have htl : tlenAt root p = textLen np := tlen_of_text hnp ht
          by_cases hgt : b > textLen np
          · have hres : uncountLoop root cAll (p :: rest) b r
                = uncountLoop root cAll rest (b - textLen np) p := by
              simp [uncountLoop, hnp, hs, ht, hgt]
            rw [hres]
            have hcount' : count root (some p) cAll + tlenAt root p
                = msum root cAll (pre ++ [p]) := by
              rw [hcp0, hmsum10]
            have hb0' : b - textLen np = 0 → tlenAt root p = 0 := by
              intro h0
              exact absurd h0 (by omega)
            have hrec := ih (pre ++ [p]) (b - textLen np) p hA' hpsome hcount' hb0'
            have hkey : msum root cAll (pre ++ [p]) + (b - textLen np)
                = msum root cAll pre + b := by
              rw [hmsum10, htl]
              omega
            rw [hkey] at hrec
            exact hrec
          · have hres : uncountLoop root cAll (p :: rest) b r = (p, b) := by
              simp [uncountLoop, hnp, hs, ht, hgt]
            rw [hres]
            left
            refine ⟨?_, ?_⟩
            · show count root (some p) cAll + b = msum root cAll pre + b
              rw [hcp0]
            · show posValidB root ⟨p, b⟩ = true
              unfold posValidB
              cases np with
              | text s2 =>
                rw [hnp]
                simp only [textLen] at hgt
                simp
                omega
              | element t2 cs2 => simp [isTextNode] at ht
        | false =>
          have htl : tlenAt root p = 0 := tlen_of_elem hnp ht
          have hres : uncountLoop root cAll (p :: rest) b r
              = uncountLoop root cAll rest b p := by
            simp [uncountLoop, hnp, hs, ht]
          rw [hres]
          have hcount' : count root (some p) cAll + tlenAt root p
              = msum root cAll (pre ++ [p]) := by
            rw [hcp0, hmsum10]
          have hb0' : b = 0 → tlenAt root p = 0 := fun _ => htl
          have hrec := ih (pre ++ [p]) b p hA' hpsome hcount' hb0'
          have hkey : msum root cAll (pre ++ [p]) + b
              = msum root cAll pre + b := by
            rw [hmsum10, htl]
            omega
          rw [hkey] at hrec
          exact hrec

/-! ### The BR fix-up and parent lookups -/

theorem brFix_id {root : DNode} {pr : Path × Nat} (h : brAt root pr.1 = false) :
    brFix root pr = pr := by
  unfold brFix
  unfold brAt at h
  cases hn : nodeAt root pr.1 with
  | none => rfl
  | some n =>
    rw [hn] at h
    have h2 : (nodeName n == "BR") = false := h
    simp [h2]

theorem brFix_br {root : DNode} {pr : Path × Nat} {n : DNode} {q : Path} {i : Nat}
    (hn : nodeAt root pr.1 = some n) (hbr : nodeName n = "BR") (hq : pr.1 = q ++ [i]) :
    brFix root pr = (q, i + 1) := by
  unfold brFix
  rw [hn]
  simp [hbr, hq]

theorem nodeAt_parent : ∀ (q : Path) (root : DNode) (i : Nat) (n : DNode),
    nodeAt root (q ++ [i]) = some n →
    ∃ par, nodeAt root q = some par ∧ i < childCount par := by
  intro q
  induction q with
  | nil =>
    intro root i n h
    refine ⟨root, rfl, ?_⟩
    simp only [List.nil_append] at h
    unfold nodeAt at h
    cases hg : (childrenOf root)[i]? with
    | none => rw [hg] at h; simp at h
    | some c =>
      have hlen : i < (childrenOf root).length := by
        by_contra hge
        rw [List.getElem?_eq_none (by omega)] at hg
        simp at hg
      exact hlen
  | cons j rest ih =>
    intro root i n h
    rw [List.cons_append] at h
    unfold nodeAt at h
    cases hg : (childrenOf root)[j]? with
    | none => rw [hg] at h; simp at h
    | some c =>
      rw [hg] at h
      obtain ⟨par, hp, hlt⟩ := ih c i n h
      refine ⟨par, ?_, hlt⟩
      unfold nodeAt
      rw [hg]
      exact hp

/-! ### Claim C1 -/

/-- C1: round trip of count and uncount.  For every tree root, every mode
flag countAll, and every n between 0 and count(root, null, countAll),
resolving with uncount and re-counting returns n:
count(root, uncount(root, n, countAll).ref, countAll) +
uncount(root, n, countAll).offset = n.  The proviso "modulo the line-break
normalization performed by uncount" is formalized as the hypothesis that the
resolution did not land on a BR node (when it does, the fix-up rewrites the
position to a parent/child-index form and the equation is not claimed). -/
theorem c1_count_uncount_round_trip (root : DNode) (cAll : Bool) (n : Nat)
    (hn : n ≤ count root none cAll)
    (hbr : brAt root (uncountRaw root n cAll).1 = false) :
    count root (some (uncount root n cAll).ref) cAll
      + (uncount root n cAll).offset = n := by
  cases root with
  | text s =>
    have hu : uncount (DNode.text s) n cAll = ⟨[], n⟩ := rfl
    rw [hu]
    show count (DNode.text s) (some []) cAll + n = n
    rw [count_root_ref]
    omega
  | element t cs =>
    have hr0 : (nodeAt (DNode.element t cs) []).isSome = true := rfl
    have hc0 : count (DNode.element t cs) (some []) cAll
        + tlenAt (DNode.element t cs) []
        = msum (DNode.element t cs) cAll [] := by
      rw [count_root_ref]
      rfl
    have hspec := uncountLoop_spec (DNode.element t cs) cAll
      (acceptedList (DNode.element t cs) cAll) [] n [] rfl hr0 hc0 (fun _ => rfl)
    have hcnone : count (DNode.element t cs) none cAll
        = msum (DNode.element t cs) cAll (acceptedList (DNode.element t cs) cAll) := by
      rw [count_none_eq]
      have h00 : contribOf (DNode.element t cs) none cAll [] = 0 := rfl
      omega
    have hraw : uncountRaw (DNode.element t cs) n cAll
        = uncountLoop (DNode.element t cs) cAll
            (acceptedList (DNode.element t cs) cAll) n [] := rfl
    rcases hspec with ⟨heq, _⟩ | hover
    · have hfix : brFix (DNode.element t cs) (uncountRaw (DNode.element t cs) n cAll)
          = uncountRaw (DNode.element t cs) n cAll := brFix_id hbr
      have hu : uncount (DNode.element t cs) n cAll
          = ⟨(uncountRaw (DNode.element t cs) n cAll).1,
             (uncountRaw (DNode.element t cs) n cAll).2⟩ := by
        unfold uncount
        rw [hfix]
      rw [hu, hraw]
      have hm0 : msum (DNode.element t cs) cAll [] = 0 := rfl
      show count (DNode.element t cs)
        (some (uncountLoop (DNode.element t cs) cAll
          (acceptedList (DNode.element t cs) cAll) n []).1) cAll
        + (uncountLoop (DNode.element t cs) cAll
            (acceptedList (DNode.element t cs) cAll) n []).2 = n
      omega
    · have hm0 : msum (DNode.element t cs) cAll [] = 0 := rfl
      omega

/-- Witness for C1 on the two-paragraph document at n = 3: the hypotheses
hold and the round trip gives 3 back. -/
theorem c1_count_uncount_round_trip_witness :
    (3 ≤ count docAbCd none false
      ∧ brAt docAbCd (uncountRaw docAbCd 3 false).1 = false)
    ∧ count docAbCd (some (uncount docAbCd 3 false).ref) false
        + (uncount docAbCd 3 false).offset = 3 :=
  ⟨⟨by decide, by decide⟩,
    c1_count_uncount_round_trip docAbCd false 3 (by decide) (by decide)⟩

/-! ### Claim C10 -/

/-- C10 counterexample: on the document DIV[P[SPAN, SPAN, SPAN, BR, H1]]
with n = 2 ≤ count = 3, uncount returns the structurally valid Position
(P, 4), yet set (which re-resolves every position through uncount with
countAll = false) resolves it out of bounds and rejects it, leaving the
selection unchanged — refuting the part of the claim that such a Position
never triggers the out-of-bounds rejection of set. -/
theorem c10_counterexample :
    2 ≤ count docBrHeading none false
    ∧ uncount docBrHeading 2 false = ⟨[0], 4⟩
    ∧ posValidB docBrHeading ⟨[0], 4⟩ = true
    ∧ outOfBounds docBrHeading (resolvedStart docBrHeading (PosArg.single ⟨[0], 4⟩) none) = true
    ∧ setModel docBrHeading (PosArg.single ⟨[0], 4⟩) none (some ⟨[], 0, [], 0⟩)
        = some ⟨[], 0, [], 0⟩ := by
  decide

/-- C10 amended: for every Element root that is not itself a line-break
node, every mode flag countAll, and every n with
0 ≤ n ≤ count(root, null, countAll), the Position returned by
uncount(root, n, countAll) is structurally valid (offset at most the child
count for an Element ref, at most the text length for a Text ref).  The
original claim further said that feeding that Position to set never
triggers its out-of-bounds rejection; that part is false because set
re-resolves positions through uncount (see the counterexample). -/
theorem c10_uncount_structurally_valid (t : String) (cs : List DNode) (cAll : Bool)
    (n : Nat) (hn : n ≤ count (DNode.element t cs) none cAll) (htag : t ≠ "BR") :
    posValidB (DNode.element t cs) (uncount (DNode.element t cs) n cAll) = true := by
  have hr0 : (nodeAt (DNode.element t cs) []).isSome = true := rfl
  have hc0 : count (DNode.element t cs) (some []) cAll
      + tlenAt (DNode.element t cs) []
      = msum (DNode.element t cs) cAll [] := by
    rw [count_root_ref]
    rfl
  have hspec := uncountLoop_spec (DNode.element t cs) cAll
    (acceptedList (DNode.element t cs) cAll) [] n [] rfl hr0 hc0 (fun _ => rfl)
  have hcnone : count (DNode.element t cs) none cAll
      = msum (DNode.element t cs) cAll (acceptedList (DNode.element t cs) cAll) := by
    rw [count_none_eq]
    have h00 : contribOf (DNode.element t cs) none cAll [] = 0 := rfl
    omega
  have hraw : uncountRaw (DNode.element t cs) n cAll
      = uncountLoop (DNode.element t cs) cAll
          (acceptedList (DNode.element t cs) cAll) n [] := rfl
  have hm0 : msum (DNode.element t cs) cAll [] = 0 := rfl
  rcases hspec with ⟨_, hval⟩ | hover
  · rw [← hraw] at hval
    by_cases hbr : brAt (DNode.element t cs) (uncountRaw (DNode.element t cs) n cAll).1 = true
    · -- resolution landed on a BR: the fix-up targets its parent
      unfold brAt at hbr
      cases hnd : nodeAt (DNode.element t cs) (uncountRaw (DNode.element t cs) n cAll).1 with
      | none => rw [hnd] at hbr; simp at hbr
      | some nd =>
        rw [hnd] at hbr
        have hname : nodeName nd = "BR" := by
          have h2 : (nodeName nd == "BR") = true := hbr
          exact eq_of_beq h2
        have hne : (uncountRaw (DNode.element t cs) n cAll).1 ≠ [] := by
          intro h0
          rw [h0] at hnd
          have : nd = DNode.element t cs := by
            have h3 : some nd = some (DNode.element t cs) := hnd.symm ▸ rfl
            exact (Option.some.injEq _ _ ▸ h3 : _)
          rw [this] at hname
          exact htag hname
        rcases List.eq_nil_or_concat (uncountRaw (DNode.element t cs) n cAll).1 with h0 | hcon
        · exact absurd h0 hne
        · obtain ⟨q, i, hqi⟩ := hcon
          have hqi' : (uncountRaw (DNode.element t cs) n cAll).1 = q ++ [i] := by
            rw [hqi, List.concat_eq_append]
          have hfix := brFix_br hnd hname hqi'
          have hu : uncount (DNode.element t cs) n cAll = ⟨q, i + 1⟩ := by
            unfold uncount
            rw [hfix]
          rw [hu]
          rw [hqi'] at hnd
          obtain ⟨par, hpar, hlt⟩ := nodeAt_parent q (DNode.element t cs) i nd hnd
          cases par with
          | text s2 =>
            simp [childCount, childrenOf] at hlt
          | element t2 cs2 =>
            unfold posValidB
            rw [hpar]
            simp only [childCount, childrenOf] at hlt
            simp
            omega
    · have hbr' : brAt (DNode.element t cs) (uncountRaw (DNode.element t cs) n cAll).1
          = false := by
        simpa using hbr
      have hfix := brFix_id hbr'
      have hu : uncount (DNode.element t cs) n cAll
          = ⟨(uncountRaw (DNode.element t cs) n cAll).1,
             (uncountRaw (DNode.element t cs) n cAll).2⟩ := by
        unfold uncount
        rw [hfix]
      rw [hu]
      exact hval
  · omega

/-- Witness for the amended C10 on the BR-and-heading document at n = 2. -/
theorem c10_uncount_structurally_valid_witness :
    2 ≤ count docBrHeading none false
    ∧ posValidB docBrHeading (uncount docBrHeading 2 false) = true :=
  ⟨by decide,
    c10_uncount_structurally_valid "DIV"
      [DNode.element "P" [spanNode, spanNode, spanNode, brNode, DNode.element "H1" []]]
      false 2 (by decide) (by decide)⟩

/-! ### Claim C9 -/

/-- C9 counterexample: in DIV[BR, UL[LI]] under default mode, the BR (path
[0]) precedes the UL (path [1]) in document order, but
count(root, BR) = 1 > count(root, UL) = 0: the BR is skipped by the filter
yet still counts its own significance step when used as ref, while the UL
contributes nothing.  Monotonicity fails for filter-skipped refs. -/
theorem c9_counterexample :
    pathLt [0] [1] = true
    ∧ (nodeAt docBrList [0]).isSome = true
    ∧ (nodeAt docBrList [1]).isSome = true
    ∧ ¬ count docBrList (some [0]) false ≤ count docBrList (some [1]) false := by
  decide

/-- C9 amended: count is monotone along document order whenever the earlier
node is the root itself or a node the traversal filter accepts (under the
given countAll mode); the later node is arbitrary.  The original claim over
all node pairs fails for refs the filter skips (see the counterexample). -/
theorem c9_count_monotone (root : DNode) (cAll : Bool) (pa pb : Path)
    (hB : pb ∈ preorderPaths root)
    (hA : pa = [] ∨ pa ∈ acceptedList root cAll)
    (hlt : pathLt pa pb = true) :
    count root (some pa) cAll ≤ count root (some pb) cAll := by
  rcases hA with rfl | hA
  · rw [count_root_ref]
    exact Nat.zero_le _
  · have hAe : pa.isEmpty = false := (mem_acceptedList hA).2.1
    have hAsome : (nodeAt root pa).isSome = true := nodeAt_isSome_of_mem_accepted hA
    have hBe : pb.isEmpty = false := by
      cases pb with
      | nil => simp [pathLt] at hlt
      | cons _ _ => rfl
    have hBsome : (nodeAt root pb).isSome = true :=
      nodeAt_isSome_of_mem_preorder root pb hB
    rw [count_some_eq root cAll pa hAe hAsome, count_some_eq root cAll pb hBe hBsome]
    obtain ⟨na, hna⟩ := Option.isSome_iff_exists.mp hAsome
    have h1 : contribOf root (some pa) cAll pa ≤ contribOf root none cAll pa := by
      rw [contrib_self hna hAe, contrib_none_eq hna hAe]
      exact Nat.le_add_right _ _
    have h2 : msum root cAll ((acceptedList root cAll).filter (fun q => pathLt q pa))
          + contribOf root none cAll pa
        ≤ msum root cAll ((acceptedList root cAll).filter (fun q => pathLt q pb)) := by
      unfold msum
      exact sum_filter_add_le (contribOf root none cAll) _ _ (acceptedList root cAll)
        pa hA (pathLt_irrefl pa) hlt
        (fun q _ hq => pathLt_trans q pa pb hq hlt)
    omega

/-- Witness for the amended C9 on the two-paragraph document: the first
paragraph precedes the second and its count is no larger. -/
theorem c9_count_monotone_witness :
    ([1] ∈ preorderPaths docAbCd
      ∧ [0] ∈ acceptedList docAbCd false
      ∧ pathLt [0] [1] = true)
    ∧ count docAbCd (some [0]) false ≤ count docAbCd (some [1]) false :=
  ⟨⟨by decide, by decide, by decide⟩,
    c9_count_monotone docAbCd false [0] [1] (by decide) (Or.inr (by decide)) (by decide)⟩

/-! ### Claim C2 -/

theorem sum_map_add {α : Type} (f g : α → Nat) :
    ∀ l : List α, (l.map (fun a => f a + g a)).sum = (l.map f).sum + (l.map g).sum := by
  intro l
  induction l with
  | nil => simp
  | cons x t ih =>
    simp only [List.map_cons, List.sum_cons, ih]
    omega

/-- C2 counterexample: in DIV[SPAN], the SPAN passes the traversal filter
but is neither a section nor a BR, so count gives it no step
(count = 0), while the claimed rule — one step per visited node that
passes the filter — predicts 1. -/
theorem c2_counterexample :
    claimCountC2 docSpanOnly none false = 1
    ∧ count docSpanOnly none false = 0
    ∧ claimCountC2 docSpanOnly none false ≠ count docSpanOnly none false := by
  decide

/-- C2 amended: every visited node other than root that satisfies the
SIGNIFICANCE test (a section element or a BR, or any node when countAll is
true) contributes exactly 1 step — not every node that passes the traversal
filter — and independently every visited Text node other than ref
contributes its full character length; the returned value is the sum of
these contributions. -/
theorem c2_count_is_sum_of_contributions (root : DNode) (ref : Option Path) (cAll : Bool) :
    count root ref cAll
      = ((visitedPaths root ref cAll).map (fun p =>
            match nodeAt root p with
            | some n => if !p.isEmpty && significant cAll n then 1 else 0
            | none => 0)).sum
        + ((visitedPaths root ref cAll).map (fun p =>
            match nodeAt root p with
            | some n => if ref != some p && isTextNode n then textLen n else 0
            | none => 0)).sum := by
  rw [count_eq_sum, ← sum_map_add]
  congr 1
  apply List.map_congr_left
  intro p _
  unfold contribOf
  cases nodeAt root p with
  | none => rfl
  | some n => rfl

/-! ### Claim C3 -/

/-- C3 counterexample: a BR that is the last child (no following sibling at
all) is rejected by the source filter, although the claim says a line break
is rejected ONLY when a list-container sibling follows it. -/
theorem c3_counterexample :
    claimFilterC3 docTrailingBr [0] = true
    ∧ filterAccept docTrailingBr [0] = false := by
  decide

/-- C3 amended: under default mode the filter rejects list containers, and
rejects a line-break node exactly when its next sibling is missing OR is a
list container; every other node is accepted.  A rejected line break
contributes 0 to count: in DIV[BR, UL[LI]] the whole count under default
mode is 1 (the LI only). -/
theorem c3_filter_characterization (root : DNode) (p : Path) (n : DNode)
    (hn : nodeAt root p = some n) :
    (filterAccept root p = true
      ↔ (isListContainer n = false
          ∧ (nodeName n ≠ "BR"
              ∨ ∃ sib, nextSiblingAt root p = some sib ∧ isListContainer sib = false)))
    ∧ count docBrList none false = 1 := by
  refine ⟨?_, by decide⟩
  unfold filterAccept
  rw [hn]
  cases hsib : nextSiblingAt root p with
  | none =>
    simp only [Bool.and_eq_true, Bool.not_eq_true', Bool.or_eq_true, bne_iff_ne, ne_eq]
    constructor
    · rintro ⟨h1, h2⟩
      rcases h2 with h2 | h2
      · exact ⟨h1, Or.inl h2⟩
      · simp at h2
    · rintro ⟨h1, h2⟩
      rcases h2 with h2 | ⟨sib, hsib2, _⟩
      · exact ⟨h1, Or.inl h2⟩
      · simp at hsib2
  | some sib =>
    simp only [Bool.and_eq_true, Bool.not_eq_true', Bool.or_eq_true, bne_iff_ne, ne_eq]
    constructor
    · rintro ⟨h1, h2⟩
      rcases h2 with h2 | h2
      · exact ⟨h1, Or.inl h2⟩
      · exact ⟨h1, Or.inr ⟨sib, rfl, by simpa using h2⟩⟩
    · rintro ⟨h1, h2⟩
      rcases h2 with h2 | ⟨sib2, hsib2, h3⟩
      · exact ⟨h1, Or.inl h2⟩
      · injection hsib2 with h4
        subst h4
        exact ⟨h1, Or.inr (by simpa using h3)⟩

/-- Witness for the amended C3 at the skipped BR of DIV[BR, UL[LI]]. -/
theorem c3_filter_characterization_witness :
    nodeAt docBrList [0] = some brNode
    ∧ ((filterAccept docBrList [0] = true
        ↔ (isListContainer brNode = false
            ∧ (nodeName brNode ≠ "BR"
                ∨ ∃ sib, nextSiblingAt docBrList [0] = some sib
                    ∧ isListContainer sib = false)))
      ∧ count docBrList none false = 1) :=
  ⟨rfl, c3_filter_characterization docBrList [0] brNode rfl⟩

/-! ### Claim C5 -/

/-- C5 counterexample: on the two-paragraph document, uncount(root, 0)
returns the root itself at offset 0 (the loop breaks at the first
significant node BEFORE moving ref), not the first paragraph's Text node
(path [0, 0]) that the claim announces. -/
theorem c5_counterexample :
    uncount docAbCd 0 false = ⟨[], 0⟩
    ∧ uncount docAbCd 0 false ≠ ⟨[0, 0], 0⟩ := by
  decide

/-- C5 amended: for the root with two Section-tagged paragraphs holding
texts "AB" and "CD", count(root) with countAll false is 6 (one significant
step per paragraph plus 4 characters), and uncount(root, 0) returns the
ROOT itself as ref with offset 0 (not the first text node). -/
theorem c5_two_paragraph_scenario :
    count docAbCd none false = 6
    ∧ uncount docAbCd 0 false = ⟨[], 0⟩ := by
  decide

/-! ### Claim C8 -/

/-- C8: for every Text root and every offset n, uncount performs no
traversal and returns the position unchanged — ref is the root itself and
the offset is n — and a missing offset defaults to 0.  This is defined
behavior, not an error. -/
theorem c8_uncount_text_root (s : String) (cAll : Bool) :
    (∀ off : Nat, uncount (DNode.text s) off cAll = ⟨[], off⟩)
    ∧ uncountOpt (DNode.text s) none cAll = ⟨[], 0⟩ :=
  ⟨fun _ => rfl, rfl⟩

/-! ### Claim C4 -/

/-- C4 counterexample: on the two-paragraph document with the selection
collapsed at the end of the text "CD" and node = that text, the selection
boundary coincides with the node's end offset; the source's inclusive
comparison reports containment, while the claim's "strictly inside"
condition does not. -/
theorem c4_counterexample :
    containsFallback docAbCd hostEndCd [] [1, 0] false = true
    ∧ containsClaimC4 docAbCd hostEndCd [] [1, 0] false = false := by
  decide

/-- C4 amended: in the fallback path of contains, with the four offsets
computed as the claim states, the result is true iff the selection fully
contains the node span (selection start ≤ node start and node end ≤
selection end), or, when partly contained, either selection boundary falls
inside the CLOSED interval [startOffset, endOffset] — boundary-inclusive,
not strictly inside. -/
theorem c4_contains_fallback_iff (doc : DNode) (host : HostRange)
    (ancPath nodePath : Path) (pc : Bool) :
    containsFallback doc host ancPath nodePath pc = true
      ↔ ((offsetFn doc host ancPath "start" true ≤ nodeStartOff doc ancPath nodePath
            ∧ nodeEndOff doc ancPath nodePath ≤ offsetFn doc host ancPath "end" true)
         ∨ (effPartly doc nodePath pc = true
            ∧ ((nodeStartOff doc ancPath nodePath ≤ offsetFn doc host ancPath "start" true
                  ∧ offsetFn doc host ancPath "start" true ≤ nodeEndOff doc ancPath nodePath)
               ∨ (nodeStartOff doc ancPath nodePath ≤ offsetFn doc host ancPath "end" true
                  ∧ offsetFn doc host ancPath "end" true ≤ nodeEndOff doc ancPath nodePath)))) := by
  unfold containsFallback nodeEndOff nodeStartOff effPartly
  cases hn : nodeAt doc nodePath with
  | none =>
    simp only [Bool.or_eq_true, Bool.and_eq_true, decide_eq_true_eq, ge_iff_le]
  | some nd =>
    cases nd with
    | element t cs =>
      simp only [Bool.or_eq_true, Bool.and_eq_true, decide_eq_true_eq, ge_iff_le]
    | text s =>
      simp only [Bool.or_eq_true, Bool.and_eq_true, decide_eq_true_eq, ge_iff_le,
        true_and]

/-! ### Claim C6 -/

/-- C6: for every Position or Positions passed to set, when either resolved
boundary is out of bounds for its ref (offset above the child count of an
Element ref or the text length of a Text ref), set returns without raising
any error — the model is a total function — and leaves the host selection
state completely unchanged; when both boundaries are within bounds, the
corresponding range is installed as the active selection. -/
theorem c6_set_silent_noop (doc : DNode) (positions : PosArg) (su : Option Bool)
    (sel : Option RawRange) :
    ((outOfBounds doc (resolvedStart doc positions su)
        || outOfBounds doc (resolvedEnd doc positions su)) = true →
      setModel doc positions su sel = sel)
    ∧ ((outOfBounds doc (resolvedStart doc positions su)
        || outOfBounds doc (resolvedEnd doc positions su)) = false →
      setModel doc positions su sel
        = some ⟨(resolvedStart doc positions su).ref,
            (resolvedStart doc positions su).offset,
            (resolvedEnd doc positions su).ref,
            (resolvedEnd doc positions su).offset⟩) := by
  constructor
  · intro h
    unfold setModel
    simp [h]
  · intro h
    unfold setModel
    simp [h]

/-- Witness for C6: a single position whose offset 99 resolves out of
bounds on the two-paragraph document is silently ignored. -/
theorem c6_set_silent_noop_witness :
    (outOfBounds docAbCd (resolvedStart docAbCd (PosArg.single ⟨[], 99⟩) none)
      || outOfBounds docAbCd (resolvedEnd docAbCd (PosArg.single ⟨[], 99⟩) none)) = true
    ∧ setModel docAbCd (PosArg.single ⟨[], 99⟩) none (some ⟨[], 0, [], 0⟩)
        = some ⟨[], 0, [], 0⟩ :=
  ⟨by decide,
    (c6_set_silent_noop docAbCd (PosArg.single ⟨[], 99⟩) none
      (some ⟨[], 0, [], 0⟩)).1 (by decide)⟩

/-! ### Claim C7 -/

theorem raisesInvalid_map {α β : Type} (f : α → β) (e : Except String α) :
    raisesInvalidArg (e.map f) = raisesInvalidArg e := by
  cases e <;> rfl

theorem getStrCaret_invalid (doc : DNode) (host : HostRange) (de : Option Path)
    (c : String) (element cAll : JSVal) :
    raisesInvalidArg (getStrCaret doc host de c element cAll)
      = (decide (c ≠ "start") && decide (c ≠ "end")) := by
  unfold getStrCaret
  by_cases h : (c != "start" && c != "end") = true
  · rw [if_pos h]
    have h2 : (decide (c ≠ "start") && decide (c ≠ "end")) = true := by
      simpa [bne_iff_ne] using h
    rw [h2]
    rfl
  · rw [if_neg h]
    have h2 : (decide (c ≠ "start") && decide (c ≠ "end")) = false := by
      rcases Bool.not_eq_true _ |>.mp h |> Bool.and_eq_false_iff.mp with h3 | h3 <;>
        simp [bne_iff_ne] at h3 <;> simp [h3]
    rw [h2]
    by_cases hb : element == JSVal.jsbool true
    · rw [if_pos hb]
      rfl
    · rw [if_neg hb]
      cases (if truthy element then element else
        match de with
        | some p => JSVal.node p
        | none => JSVal.node []) <;> rfl

theorem raisesInvalid_getModel_eq (doc : DNode) (host : HostRange) (de : Option Path)
    (caret element cAll : JSVal) :
    raisesInvalidArg (getModel doc host de caret element cAll)
      = (match caret with
         | JSVal.str s => decide (s ≠ "start") && decide (s ≠ "end")
         | _ => false) := by
  have hend : raisesInvalidArg (getStrCaret doc host de "end" caret element) = false := by
    rw [getStrCaret_invalid]
    decide
  have hstart : raisesInvalidArg (getStrCaret doc host de "start" caret element) = false := by
    rw [getStrCaret_invalid]
    decide
  cases caret with
  | str s =>
    simp only [getModel]
    rw [raisesInvalid_map, getStrCaret_invalid]
  | jsbool b =>
    simp only [getModel]
    cases hE : getStrCaret doc host de "end" (JSVal.jsbool b) element with
    | error m =>
      rw [hE] at hend
      simpa using hend
    | ok pos =>
      cases hcol : host.collapsed with
      | true => rfl
      | false =>
        cases hS : getStrCaret doc host de "start" (JSVal.jsbool b) element with
        | error m =>
          rw [hS] at hstart
          simp [hcol]
          simpa using hstart
        | ok pos2 => simp [hcol, hS]; rfl
  | num v =>
    simp only [getModel]
    cases hE : getStrCaret doc host de "end" (JSVal.num v) element with
    | error m =>
      rw [hE] at hend
      simpa using hend
    | ok pos =>
      cases hcol : host.collapsed with
      | true => rfl
      | false =>
        cases hS : getStrCaret doc host de "start" (JSVal.num v) element with
        | error m =>
          rw [hS] at hstart
          simp [hcol]
          simpa using hstart
        | ok pos2 => simp [hcol, hS]; rfl
  | node p =>
    simp only [getModel]
    cases hE : getStrCaret doc host de "end" (JSVal.node p) element with
    | error m =>
      rw [hE] at hend
      simpa using hend
    | ok pos =>
      cases hcol : host.collapsed with
      | true => rfl
      | false =>
        cases hS : getStrCaret doc host de "start" (JSVal.node p) element with
        | error m =>
          rw [hS] at hstart
          simp [hcol]
          simpa using hstart
        | ok pos2 => simp [hcol, hS]; rfl
  | undef =>
    simp only [getModel]
    cases hE : getStrCaret doc host de "end" JSVal.undef element with
    | error m =>
      rw [hE] at hend
      simpa using hend
    | ok pos =>
      cases hcol : host.collapsed with
      | true => rfl
      | false =>
        cases hS : getStrCaret doc host de "start" JSVal.undef element with
        | error m =>
          rw [hS] at hstart
          simp [hcol]
          simpa using hstart
        | ok pos2 => simp [hcol, hS]; rfl

/-- C7 counterexample: the claim predicts no invalid-argument failure for
the string "foo" (a string), yet get throws it; and predicts a failure for
undefined (a non-string, non-boolean value that is not "start"/"end"), yet
get returns normally. -/
theorem c7_counterexample :
    claimC7Fails (JSVal.str "foo") = false
    ∧ raisesInvalidArg
        (getModel docAbCd hostEndCd none (JSVal.str "foo") JSVal.undef JSVal.undef) = true
    ∧ claimC7Fails JSVal.undef = true
    ∧ raisesInvalidArg
        (getModel docAbCd hostEndCd none JSVal.undef JSVal.undef JSVal.undef) = false := by
  decide

/-- C7 amended: get raises the invalid-argument failure exactly when its
first argument caret IS a string different from "start" and "end"; calls
with caret equal to "start" or "end", and calls with any non-string caret,
never raise it. -/
theorem c7_get_invalid_arg_iff (doc : DNode) (host : HostRange) (de : Option Path)
    (caret element cAll : JSVal) :
    raisesInvalidArg (getModel doc host de caret element cAll) = true
      ↔ ∃ s, caret = JSVal.str s ∧ s ≠ "start" ∧ s ≠ "end" := by
  rw [raisesInvalid_getModel_eq]
  cases caret <;> simp

end Selektr
